import Mathlib

/-
Verification development for a minimal feed-forward neural network
(`fully_connected_layer.py`): affine / ReLU / softmax layers, a network
built from a width sequence, cross-entropy cost, and a single-example
SGD training loop.  Machine floats are idealised as real numbers; numpy
2-D arrays are modelled by `NMat` below, which records the shape as data
(entries outside the recorded shape are junk and never constrained).
-/

noncomputable section

/-- Model of a numpy 2-D array: a shape together with a total entry
function.  Entries at indices outside `rows × cols` are junk. -/
structure NMat where
  rows : ℕ
  cols : ℕ
  entry : ℕ → ℕ → ℝ

/-- The all-zero 0×0 array, used for layer attributes that Python only
creates on the first `forward`/`backward` call. -/
def emptyMat : NMat := ⟨0, 0, fun _ _ => 0⟩

/-- Index adjustment for numpy broadcasting along one axis: an axis of
extent 1 is read at index 0. -/
def bcastIdx (n i : ℕ) : ℕ := if n = 1 then 0 else i

/-- Model of a numpy element-wise binary operation with 2-D broadcasting
(the source only ever broadcasts axes of extent 1). -/
def npBinop (f : ℝ → ℝ → ℝ) (A B : NMat) : NMat :=
  ⟨max A.rows B.rows, max A.cols B.cols, fun i j =>
    f (A.entry (bcastIdx A.rows i) (bcastIdx A.cols j))
      (B.entry (bcastIdx B.rows i) (bcastIdx B.cols j))⟩

/-- Model of numpy `+` (element-wise, broadcasting). -/
def npAdd (A B : NMat) : NMat := npBinop (· + ·) A B

/-- Model of numpy `-` (element-wise, broadcasting). -/
def npSub (A B : NMat) : NMat := npBinop (· - ·) A B

/-- Model of `np.multiply` (element-wise, broadcasting). -/
def npMul (A B : NMat) : NMat := npBinop (· * ·) A B

/-- Model of numpy `/` (element-wise, broadcasting). -/
def npDiv (A B : NMat) : NMat := npBinop (· / ·) A B

/-- Element-wise map over an array (models `np.vectorize`, `np.exp`,
`np.log`, `np.clip`, and scalar broadcasting of `+`/`-`/`*`). -/
def npMap (f : ℝ → ℝ) (A : NMat) : NMat :=
  ⟨A.rows, A.cols, fun i j => f (A.entry i j)⟩

/-- Model of `alpha * A` (scalar times array). -/
def npSmul (c : ℝ) (A : NMat) : NMat := npMap (fun v => c * v) A

/-- Model of `A - c` (array minus scalar). -/
def npSubScalar (A : NMat) (c : ℝ) : NMat := npMap (fun v => v - c) A

/-- Model of `A + c` (array plus scalar). -/
def npAddScalar (A : NMat) (c : ℝ) : NMat := npMap (fun v => v + c) A

/-- Model of `np.clip(A, lo, hi)` (element-wise `min (max · lo) hi`). -/
def npClip (A : NMat) (lo hi : ℝ) : NMat := npMap (fun v => min (max v lo) hi) A

/-- Model of `np.log` (element-wise; `Real.log` is 0 on non-positive
arguments, which the source never feeds it). -/
def npLog (A : NMat) : NMat := npMap Real.log A

/-- Model of `A.T`. -/
def npT (A : NMat) : NMat := ⟨A.cols, A.rows, fun i j => A.entry j i⟩

/-- Model of `np.dot` for 2-D arrays (matrix product; the contracted
extent is the left factor's column count, as numpy requires the shapes
to agree). -/
def npDot (A B : NMat) : NMat :=
  ⟨A.rows, B.cols, fun i j => ∑ k ∈ Finset.range A.cols, A.entry i k * B.entry k j⟩

/-- Model of `np.outer(A, B)`: both arguments are flattened in row-major
order and the outer product of the two flat vectors is formed, so the
result has shape `(A.rows * A.cols) × (B.rows * B.cols)`. -/
def npOuter (A B : NMat) : NMat :=
  ⟨A.rows * A.cols, B.rows * B.cols, fun i j =>
    A.entry (i / A.cols) (i % A.cols) * B.entry (j / B.cols) (j % B.cols)⟩

/-- Model of `np.where(F == 0.0, 0.0, C)` for same-shaped arrays. -/
def npWhereZero (F C : NMat) : NMat :=
  ⟨F.rows, F.cols, fun i j => if F.entry i j = 0 then 0 else C.entry i j⟩

/-- Model of `np.max(A)` (maximum over all entries; numpy raises on an
empty array, modelled by a junk value 0). -/
def npMax (A : NMat) : ℝ :=
  if h : 0 < A.rows ∧ 0 < A.cols then
    ((Finset.range A.rows) ×ˢ (Finset.range A.cols)).sup'
      ⟨(0, 0), Finset.mem_product.2
        ⟨Finset.mem_range.2 h.1, Finset.mem_range.2 h.2⟩⟩
      (fun p => A.entry p.1 p.2)
  else 0

/-- Model of `A.sum(axis=0)`: the row of column sums (a numpy 1-D array,
which broadcasts over rows in the subsequent division). -/
def colSumRow (A : NMat) : NMat :=
  ⟨1, A.cols, fun _ j => ∑ i ∈ Finset.range A.rows, A.entry i j⟩

/-- Model of `A.mean(axis=1)`: the numpy 1-D array of row means. -/
def meanAxis1 (A : NMat) : ℕ → ℝ :=
  fun i => (∑ j ∈ Finset.range A.cols, A.entry i j) / (A.cols : ℝ)

/-- Model of `v.reshape(m, 1)` for a 1-D array `v` of length `m`. -/
def colOf (v : ℕ → ℝ) (m : ℕ) : NMat := ⟨m, 1, fun i _ => v i⟩

/-- Model of the sum of all entries of an array (`np.sum`). -/
def sumAll (A : NMat) : ℝ :=
  ∑ i ∈ Finset.range A.rows, ∑ j ∈ Finset.range A.cols, A.entry i j

/-- Model of `X[idx].reshape(1, -1)`: one row of `X` as a 1×cols array. -/
def rowMat (X : NMat) (idx : ℕ) : NMat :=
  ⟨1, X.cols, fun _ j => X.entry idx j⟩

/-- Abstraction of `np.random.normal(loc, scale, size=(rows, cols))`:
a sampler receives the location, the scale, and the requested shape and
yields the sampled entries.  The source's call passes the default
location 0 and `scale = xavier_std`. -/
def NormalSampler : Type := ℝ → ℝ → ℕ → ℕ → (ℕ → ℕ → ℝ)

/-- State of `AffineLayer`: learnable weights and bias plus the
attributes mutated by `forward`/`backward`. -/
structure AffineLayer where
  weights : NMat
  bias_weights : NMat
  inputs : NMat
  forward_product : NMat
  gradient : NMat
  new_cache : NMat

/-- Model of `AffineLayer.__init__`: `xavier_std = 2 / in_dim` is passed
as the `scale` of a zero-mean normal draw of shape `(out_dim, in_dim)`,
and the bias is the constant column `0.01` of shape `(out_dim, 1)`. -/
def AffineLayer.init (sampler : NormalSampler) (in_dim out_dim : ℕ) : AffineLayer :=
  { weights := ⟨out_dim, in_dim, sampler 0 (2 / (in_dim : ℝ)) out_dim in_dim⟩
    bias_weights := ⟨out_dim, 1, fun _ _ => 0.01⟩
    inputs := emptyMat
    forward_product := emptyMat
    gradient := emptyMat
    new_cache := emptyMat }

/-- Model of `AffineLayer.forward`: caches the input, computes
`np.dot(weights, inputs) + bias_weights` (bias broadcast across the
batch axis), caches and returns it. -/
def AffineLayer.forward (l : AffineLayer) (x : NMat) : AffineLayer × NMat :=
  let fp := npAdd (npDot l.weights x) l.bias_weights
  ({ l with inputs := x, forward_product := fp }, fp)

/-- Model of `AffineLayer.backward`: stores `np.outer(cache, inputs)` as
the weight gradient, overwrites the bias with
`np.multiply(cache, bias_weights)`, and returns
`np.dot(weights.T, cache)`. -/
def AffineLayer.backward (l : AffineLayer) (cache : NMat) : AffineLayer × NMat :=
  let g := npOuter cache l.inputs
  let nb := npMul cache l.bias_weights
  let nc := npDot (npT l.weights) cache
  ({ l with gradient := g, bias_weights := nb, new_cache := nc }, nc)

/-- State of `ReluLayer`. -/
structure ReluLayer where
  dim : ℕ
  inputs : NMat
  forward_product : NMat
  gradient : NMat

/-- Model of `ReluLayer.__init__`. -/
def ReluLayer.init (d : ℕ) : ReluLayer :=
  { dim := d, inputs := emptyMat, forward_product := emptyMat, gradient := emptyMat }

/-- Model of `ReluLayer.forward`: element-wise `max(x, 0.0)`, cached. -/
def ReluLayer.forward (l : ReluLayer) (x : NMat) : ReluLayer × NMat :=
  let fp := npMap (fun v => max v 0) x
  ({ l with inputs := x, forward_product := fp }, fp)

/-- Model of `ReluLayer.backward`:
`np.where(forward_product == 0.0, 0.0, cache)`. -/
def ReluLayer.backward (l : ReluLayer) (cache : NMat) : ReluLayer × NMat :=
  let g := npWhereZero l.forward_product cache
  ({ l with gradient := g }, g)

/-- State of `SoftmaxLayer`. -/
structure SoftmaxLayer where
  in_dim : ℕ
  inputs : NMat
  forward_product : NMat
  gradient : NMat

/-- Model of `SoftmaxLayer.__init__`. -/
def SoftmaxLayer.init (d : ℕ) : SoftmaxLayer :=
  { in_dim := d, inputs := emptyMat, forward_product := emptyMat, gradient := emptyMat }

/-- Model of `SoftmaxLayer.forward`: `e_x = np.exp(inputs - np.max(inputs))`
(note: the *global* maximum is subtracted), then each column is divided
by its sum `e_x.sum(axis=0)`. -/
def SoftmaxLayer.forward (l : SoftmaxLayer) (x : NMat) : SoftmaxLayer × NMat :=
  let ex := npMap Real.exp (npSubScalar x (npMax x))
  let fp := npDiv ex (colSumRow ex)
  ({ l with inputs := x, forward_product := fp }, fp)

/-- Model of `SoftmaxLayer.backward`: `(forward_product - y_true)`,
averaged over the batch axis (`mean(axis=1)`), reshaped to a column. -/
def SoftmaxLayer.backward (l : SoftmaxLayer) (y_true : NMat) : SoftmaxLayer × NMat :=
  let d := npSub l.forward_product y_true
  let g := colOf (meanAxis1 d) d.rows
  ({ l with gradient := g }, g)

/-- A network layer: one of the three concrete layer classes. -/
inductive Layer where
  | affine (l : AffineLayer)
  | relu (l : ReluLayer)
  | softmax (l : SoftmaxLayer)

/-- Dynamic dispatch of `layer.forward(x)`. -/
def Layer.forward (L : Layer) (x : NMat) : Layer × NMat :=
  match L with
  | .affine l => let p := l.forward x; (.affine p.1, p.2)
  | .relu l => let p := l.forward x; (.relu p.1, p.2)
  | .softmax l => let p := l.forward x; (.softmax p.1, p.2)

/-- Dynamic dispatch of `layer.backward(cache)` (for the softmax layer
the argument is the true label matrix). -/
def Layer.backward (L : Layer) (cache : NMat) : Layer × NMat :=
  match L with
  | .affine l => let p := l.backward cache; (.affine p.1, p.2)
  | .relu l => let p := l.backward cache; (.relu p.1, p.2)
  | .softmax l => let p := l.backward cache; (.softmax p.1, p.2)

/-- Shape-level view of a layer (kind plus dimensions), used to state
topology properties. -/
inductive LayerKind where
  | affineK (inDim outDim : ℕ)
  | reluK (d : ℕ)
  | softmaxK (d : ℕ)
deriving DecidableEq

/-- The kind and dimensions of a layer (an affine layer's weight matrix
has shape `out_dim × in_dim`). -/
def Layer.kind : Layer → LayerKind
  | .affine a => .affineK a.weights.cols a.weights.rows
  | .relu r => .reluK r.dim
  | .softmax s => .softmaxK s.in_dim

/-- Whether a layer is an `AffineLayer` (`isinstance` check). -/
def Layer.isAffineB : Layer → Bool
  | .affine _ => true
  | _ => false

/-- Whether a layer is a `ReluLayer`. -/
def Layer.isReluB : Layer → Bool
  | .relu _ => true
  | _ => false

/-- Whether a layer is a `SoftmaxLayer`. -/
def Layer.isSoftmaxB : Layer → Bool
  | .softmax _ => true
  | _ => false

/-- The parameter-and-gradient view of a layer: everything `forward`
does *not* touch (weights, bias and stored weight gradient for affine
layers; the construction dimension for the others). -/
inductive ParamView where
  | affineP (w b g : NMat)
  | reluP (d : ℕ)
  | softmaxP (d : ℕ)

/-- Project a layer to its parameter view. -/
def Layer.paramView : Layer → ParamView
  | .affine a => .affineP a.weights a.bias_weights a.gradient
  | .relu r => .reluP r.dim
  | .softmax s => .softmaxP s.in_dim

/-- Network state: the width sequence and the ordered layer list. -/
structure NeuralNetwork where
  layer_dimensions : List ℕ
  layers : List Layer

/-- The `Affine(d_i, d_{i+1}), ReLU(d_{i+1})` pairs appended by the
constructor loop over `zip(dims[:-1], dims[1:])`. -/
def mkBuilt (sampler : NormalSampler) (dims : List ℕ) : List Layer :=
  (List.zip dims.dropLast dims.tail).flatMap
    (fun p => [Layer.affine (AffineLayer.init sampler p.1 p.2),
               Layer.relu (ReluLayer.init p.2)])

/-- Model of the constructor's layer list: build the affine/ReLU pairs,
`pop()` the trailing ReLU (an `IndexError`, modelled as `none`, when the
list is empty), then append one `SoftmaxLayer(dims[-1])`. -/
def mkLayers (sampler : NormalSampler) (dims : List ℕ) : Option (List Layer) :=
  match mkBuilt sampler dims with
  | [] => none
  | b :: bs =>
    some ((b :: bs).dropLast ++ [Layer.softmax (SoftmaxLayer.init (dims.getLastD 0))])

/-- Model of `NeuralNetwork.__init__`: `none` when construction raises. -/
def mkNetwork (sampler : NormalSampler) (dims : List ℕ) : Option NeuralNetwork :=
  (mkLayers sampler dims).map (fun ls => ⟨dims, ls⟩)

/-- Thread a value through `layer.forward` for each layer in order,
collecting the updated layers and the final output. -/
def forwardLayers : List Layer → NMat → List Layer × NMat
  | [], v => ([], v)
  | L :: rest, v =>
    let p := L.forward v
    let q := forwardLayers rest p.2
    (p.1 :: q.1, q.2)

/-- Model of `NeuralNetwork.forward_pass`: threads the input through
every layer in order; returns the updated network and the last output. -/
def NeuralNetwork.forward_pass (net : NeuralNetwork) (X : NMat) : NeuralNetwork × NMat :=
  let p := forwardLayers net.layers X
  ({ net with layers := p.1 }, p.2)

/-- Thread a gradient through `layer.backward` for each layer in the
given (already reversed) order. -/
def backwardLayers : List Layer → NMat → List Layer × NMat
  | [], g => ([], g)
  | L :: rest, g =>
    let p := L.backward g
    let q := backwardLayers rest p.2
    (p.1 :: q.1, q.2)

/-- Model of `NeuralNetwork.backward_pass`: calls `backward` on the
layers in reverse order, starting from the true labels. -/
def NeuralNetwork.backward_pass (net : NeuralNetwork) (y_true : NMat) : NeuralNetwork :=
  let p := backwardLayers net.layers.reverse y_true
  { net with layers := p.1.reverse }

/-- Model of `NeuralNetwork.cost_function` (a method that ignores
`self`): clip `AL.T` to `[1e-12, 1 - 1e-12]`, then
`-np.sum(np.multiply(y.T, np.log(clipped + 1e-9))) / N` with `N` the
row count of the clipped array (the batch size). -/
def cost_function (AL y : NMat) : ℝ :=
  let A := npClip (npT AL) (1 / 10 ^ 12) (1 - 1 / 10 ^ 12)
  let N := A.rows
  let s := sumAll (npMul (npT y) (npLog (npAddScalar A (1 / 10 ^ 9))))
  (-s) / (N : ℝ)

/-- Model of `NeuralNetwork.update_parameters`: for every
`AffineLayer`, `weights ← weights - alpha * gradient`; every other
layer is left untouched. -/
def NeuralNetwork.update_parameters (net : NeuralNetwork) (alpha : ℝ) : NeuralNetwork :=
  { net with layers := net.layers.map (fun L =>
      match L with
      | .affine a => .affine { a with weights := npSub a.weights (npSmul alpha a.gradient) }
      | other => other) }

/-- The parameter view of every layer of a network. -/
def NeuralNetwork.paramsView (net : NeuralNetwork) : List ParamView :=
  net.layers.map Layer.paramView

/-- Model of `NeuralNetwork.predict`: just a forward pass. -/
def NeuralNetwork.predict (net : NeuralNetwork) (X : NMat) : NeuralNetwork × NMat :=
  net.forward_pass X

/-- Model of `np.argmax` down a column: first index attaining the
column maximum. -/
def argmaxCol (A : NMat) (j : ℕ) : ℕ :=
  (List.range A.rows).foldl (fun best i => if A.entry best j < A.entry i j then i else best) 0

/-- Model of `np.argmax` along a row: first index attaining the row
maximum. -/
def argmaxRow (A : NMat) (i : ℕ) : ℕ :=
  (List.range A.cols).foldl (fun best j => if A.entry i best < A.entry i j then j else best) 0

/-- Model of `NeuralNetwork.get_accuracy_score`: runs `predict(X.T)`
(mutating the layer caches) and compares per-example argmaxes; the
fraction correct is the `accuracy_score` value. -/
def NeuralNetwork.get_accuracy_score (net : NeuralNetwork) (X y : NMat) : NeuralNetwork × ℝ :=
  let q := net.predict (npT X)
  (q.1, (((Finset.range y.rows).filter
      (fun j => argmaxCol q.2 j = argmaxRow y j)).card : ℝ) / (y.rows : ℝ))

/-- State effect of the periodic-reporting branch of `train` (taken when
`i % 1999 == 0`): accuracy on the training set, a forward pass on the
validation set (for the validation loss), and accuracy on the validation
set.  All three only re-run forward passes; the printed values are pure
functions of the results. -/
def reportState (net : NeuralNetwork) (Xtr ytr Xval yval : NMat) : NeuralNetwork :=
  let a := net.get_accuracy_score Xtr ytr
  let b := a.1.forward_pass (npT Xval)
  let c := b.1.get_accuracy_score Xval yval
  c.1

/-- One iteration of the `train` loop on the state
`(network, losses list)`: select the example at `perm (i % N)`, forward
pass on its transposed row, record the loss, backward pass, the
reporting branch when `i % 1999 == 0`, and finally `update_parameters`. -/
def trainStep (Xtr ytr Xval yval : NMat) (alpha : ℝ) (perm : ℕ → ℕ)
    (p : NeuralNetwork × List ℝ) (i : ℕ) : NeuralNetwork × List ℝ :=
  let idx := perm (i % Xtr.rows)
  let xs := rowMat Xtr idx
  let ys := rowMat ytr idx
  let f := p.1.forward_pass (npT xs)
  let loss := cost_function f.2 (npT ys)
  let n2 := f.1.backward_pass (npT ys)
  let n3 := if i % 1999 = 0 then reportState n2 Xtr ytr Xval yval else n2
  (n3.update_parameters alpha, p.2 ++ [loss])

/-- The first `iters` iterations of the training loop, folded over
`range(iters)` starting from the given network and an empty loss list
(`random_indices` is the permutation computed once before the loop). -/
def trainLoop (Xtr ytr Xval yval : NMat) (alpha : ℝ) (perm : ℕ → ℕ)
    (net : NeuralNetwork) (iters : ℕ) : NeuralNetwork × List ℝ :=
  (List.range iters).foldl (trainStep Xtr ytr Xval yval alpha perm) (net, [])

/-- Model of `NeuralNetwork.train`: run `iters` iterations and return
the final network state (`batch_size` is accepted and unused, as in the
source). -/
def NeuralNetwork.train (net : NeuralNetwork) (Xtr Xval ytr yval : NMat)
    (iters : ℕ) (alpha : ℝ) (batch_size : ℕ) (perm : ℕ → ℕ) : NeuralNetwork :=
  (trainLoop Xtr ytr Xval yval alpha perm net iters).1

/-- Specification-side definition (from the spec's words, for claim C2):
the maximum of column `j`, "subtract the per-column maximum". -/
def specColMax (A : NMat) (j : ℕ) : ℝ :=
  if h : 0 < A.rows then
    (Finset.range A.rows).sup' ⟨0, Finset.mem_range.2 h⟩ (fun i => A.entry i j)
  else 0

/-- Specification-side definition (from the spec's words, for claim C6):
the layer-kind sequence `Affine(d0,d1), ReLU(d1), …, Affine(d_{k-1},dk),
Softmax(dk)`. -/
def specTopologyKinds : ℕ → List ℕ → List LayerKind
  | _, [] => []
  | a, [b] => [.affineK a b, .softmaxK b]
  | a, b :: c :: rest => .affineK a b :: .reluK b :: specTopologyKinds b (c :: rest)

/-- Specification-side predicate: `y` is a one-hot label matrix with one
example per column (a single entry 1 in each column, 0 elsewhere). -/
def IsOneHot (y : NMat) : Prop :=
  ∀ j < y.cols, ∃ t < y.rows, ∀ i < y.rows, y.entry i j = if i = t then 1 else 0

/-- Constant matrix, used to build concrete witnesses. -/
def cm (r c : ℕ) (v : ℝ) : NMat := ⟨r, c, fun _ _ => v⟩

/-- A concrete sampler whose entries reveal the location and scale it
was called with. -/
def cSampler : NormalSampler := fun loc scale _ _ => fun _ _ => loc + scale

/-- A concrete affine layer state used in witnesses. -/
def cAffine : AffineLayer := ⟨cm 1 1 3, cm 1 1 1, cm 1 1 2, cm 1 1 5, cm 1 1 7, cm 1 1 0⟩

/-- A concrete two-layer network used in witnesses. -/
def cNet : NeuralNetwork := ⟨[1, 1], [.affine cAffine, .softmax (SoftmaxLayer.init 1)]⟩

/-- Concrete upstream gradient of shape 1×2 (batch 2). -/
def cCache2 : NMat := ⟨1, 2, fun _ j => (j : ℝ) + 1⟩

/-- Concrete cached input of shape 1×2 (batch 2). -/
def cInputs2 : NMat := ⟨1, 2, fun _ j => (j : ℝ) + 3⟩

/-- A concrete affine layer whose cached input has batch size 2. -/
def cAffine2 : AffineLayer := ⟨cm 1 1 1, cm 1 1 1, cInputs2, emptyMat, emptyMat, emptyMat⟩

/-- Concrete 3×1 input with one negative, one zero and one positive
entry, for the ReLU witness. -/
def cRelu3 : NMat := ⟨3, 1, fun i _ => if i = 0 then -1 else if i = 1 then 0 else 2⟩

/-- Constant 3×1 upstream gradient for the ReLU witness. -/
def cGrad3 : NMat := ⟨3, 1, fun _ _ => 5⟩

/-- Broadcasting leaves in-range indices unchanged. -/
theorem bcastIdx_of_lt {n i : ℕ} (h : i < n) : bcastIdx n i = i := by
  unfold bcastIdx
  split
  · omega
  · rfl

/-- Broadcasting leaves index 0 unchanged. -/
theorem bcastIdx_zero (n : ℕ) : bcastIdx n 0 = 0 := by
  unfold bcastIdx
  split <;> rfl

/-- C7: `ReluLayer.forward` is element-wise `max(·, 0)` of the input
(cached as `forward_product`), and a subsequent `backward` returns 0 at
every position where the cached forward output is exactly 0 and the
upstream gradient unchanged elsewhere. -/
theorem relu_forward_backward_spec (l : ReluLayer) (x cache : NMat) :
    ((l.forward x).2.rows = x.rows ∧ (l.forward x).2.cols = x.cols ∧
      (∀ i j, (l.forward x).2.entry i j = max (x.entry i j) 0) ∧
      (l.forward x).1.forward_product = (l.forward x).2) ∧
    (((l.forward x).1.backward cache).2.rows = x.rows ∧
      ((l.forward x).1.backward cache).2.cols = x.cols ∧
      ∀ i j, ((l.forward x).2.entry i j = 0 →
          ((l.forward x).1.backward cache).2.entry i j = 0) ∧
        ((l.forward x).2.entry i j ≠ 0 →
          ((l.forward x).1.backward cache).2.entry i j = cache.entry i j)) := by
  refine ⟨⟨rfl, rfl, fun i j => rfl, rfl⟩, ⟨rfl, rfl, fun i j => ⟨fun h => ?_, fun h => ?_⟩⟩⟩
  · simp only [ReluLayer.forward, ReluLayer.backward, npWhereZero, npMap] at h ⊢
    simp [h]
  · simp only [ReluLayer.forward, ReluLayer.backward, npWhereZero, npMap] at h ⊢
    simp [h]

/-- Witness for C7: on the concrete input `(-1, 0, 2)` the backward pass
zeroes the gradient at the first two positions (forward output 0) and
passes `5` through at the third. -/
theorem relu_forward_backward_spec_witness :
    (((ReluLayer.init 3).forward cRelu3).1.backward cGrad3).2.entry 0 0 = 0 ∧
    (((ReluLayer.init 3).forward cRelu3).1.backward cGrad3).2.entry 1 0 = 0 ∧
    (((ReluLayer.init 3).forward cRelu3).1.backward cGrad3).2.entry 2 0 = 5 := by
  have h := relu_forward_backward_spec (ReluLayer.init 3) cRelu3 cGrad3
  refine ⟨(h.2.2.2 0 0).1 ?_, (h.2.2.2 1 0).1 ?_, ?_⟩
  · simp [ReluLayer.forward, npMap, cRelu3]
  · simp [ReluLayer.forward, npMap, cRelu3]
  · have h2 := (h.2.2.2 2 0).2
    rw [h2 ?_]
    · simp [cGrad3]
    · simp [ReluLayer.forward, npMap, cRelu3]

/-- C10: constructing a network from a width sequence of length < 2
fails (`pop` from the empty layer list raises), modelled as `none`. -/
theorem mkNetwork_short_dims_none (sampler : NormalSampler) (dims : List ℕ)
    (h : dims.length < 2) : mkNetwork sampler dims = none := by
  match dims with
  | [] => rfl
  | [d] => rfl
  | a :: b :: rest => simp only [List.length_cons] at h; omega

/-- Witness for C10: the singleton width sequence `[5]` yields no
network. -/
theorem mkNetwork_short_dims_none_witness : mkNetwork cSampler [5] = none :=
  mkNetwork_short_dims_none cSampler [5] (by decide)

/-- C5: `update_parameters` maps `weights ← weights - alpha * gradient`
on every affine layer, leaves its bias and cached state intact, leaves
ReLU and softmax layers untouched, and preserves the width sequence and
the layer count. -/
theorem update_parameters_spec (net : NeuralNetwork) (alpha : ℝ) :
    (net.update_parameters alpha).layer_dimensions = net.layer_dimensions ∧
    (net.update_parameters alpha).layers.length = net.layers.length ∧
    ∀ k : ℕ,
      (∀ a : AffineLayer, net.layers[k]? = some (.affine a) →
        (net.update_parameters alpha).layers[k]? =
          some (.affine { a with weights := npSub a.weights (npSmul alpha a.gradient) }) ∧
        ∀ i j : ℕ, i < a.weights.rows → j < a.weights.cols →
          i < a.gradient.rows → j < a.gradient.cols →
          (npSub a.weights (npSmul alpha a.gradient)).entry i j =
            a.weights.entry i j - alpha * a.gradient.entry i j) ∧
      (∀ r : ReluLayer, net.layers[k]? = some (.relu r) →
        (net.update_parameters alpha).layers[k]? = some (.relu r)) ∧
      (∀ s : SoftmaxLayer, net.layers[k]? = some (.softmax s) →
        (net.update_parameters alpha).layers[k]? = some (.softmax s)) := by
  refine ⟨rfl, by simp [NeuralNetwork.update_parameters], fun k => ⟨?_, ?_, ?_⟩⟩
  · intro a ha
    constructor
    · simp [NeuralNetwork.update_parameters, List.getElem?_map, ha]
    · intro i j hiw hjw hig hjg
      simp [npSub, npBinop, npSmul, npMap, bcastIdx_of_lt hiw, bcastIdx_of_lt hjw,
        bcastIdx_of_lt hig, bcastIdx_of_lt hjg]
  · intro r hr
    simp [NeuralNetwork.update_parameters, List.getElem?_map, hr]
  · intro s hs
    simp [NeuralNetwork.update_parameters, List.getElem?_map, hs]

/-- Witness for C5: on a concrete two-layer network with learning rate
2, the affine layer's weights become `3 - 2·7` while its bias is kept,
and the softmax layer is untouched. -/
theorem update_parameters_spec_witness :
    (cNet.update_parameters 2).layers[0]? =
      some (.affine { cAffine with
        weights := npSub cAffine.weights (npSmul 2 cAffine.gradient) }) ∧
    (npSub cAffine.weights (npSmul 2 cAffine.gradient)).entry 0 0 = 3 - 2 * 7 ∧
    (cNet.update_parameters 2).layers[1]? = some (.softmax (SoftmaxLayer.init 1)) := by
  have h := update_parameters_spec cNet 2
  have h0 := (h.2.2 0).1 cAffine rfl
  refine ⟨h0.1, ?_, (h.2.2 1).2.2 (SoftmaxLayer.init 1) rfl⟩
  have := h0.2 0 0 (by decide) (by decide) (by decide) (by decide)
  rw [this]
  simp [cAffine, cm]

/-- C1 (amended to batch size 1, the regime of the training loop):
`AffineLayer.backward` stores the outer product of the upstream gradient
and the cached input as the weight gradient (shape out_dim × in_dim),
overwrites the bias with the element-wise product of the upstream
gradient and the current bias, and returns `weightsᵀ · upstream` of
shape in_dim × 1. -/
theorem affine_backward_spec (l : AffineLayer) (cache : NMat)
    (hin : l.inputs.cols = 1) (hc : cache.cols = 1)
    (hcr : cache.rows = l.weights.rows) (hir : l.inputs.rows = l.weights.cols)
    (hbr : l.bias_weights.rows = l.weights.rows) (hbc : l.bias_weights.cols = 1) :
    ((l.backward cache).1.gradient.rows = l.weights.rows ∧
      (l.backward cache).1.gradient.cols = l.weights.cols ∧
      ∀ i j, (l.backward cache).1.gradient.entry i j =
        cache.entry i 0 * l.inputs.entry j 0) ∧
    ((l.backward cache).1.bias_weights.rows = l.weights.rows ∧
      (l.backward cache).1.bias_weights.cols = 1 ∧
      ∀ i, i < l.weights.rows →
        (l.backward cache).1.bias_weights.entry i 0 =
          cache.entry i 0 * l.bias_weights.entry i 0) ∧
    ((l.backward cache).2.rows = l.weights.cols ∧
      (l.backward cache).2.cols = 1 ∧
      ∀ i, (l.backward cache).2.entry i 0 =
        ∑ k ∈ Finset.range l.weights.rows, l.weights.entry k i * cache.entry k 0) := by
  refine ⟨⟨?_, ?_, ?_⟩, ⟨?_, ?_, ?_⟩, ?_, ?_, ?_⟩
  · simp [AffineLayer.backward, npOuter, hc, hcr]
  · simp [AffineLayer.backward, npOuter, hin, hir]
  · intro i j
    simp [AffineLayer.backward, npOuter, hc, hin, Nat.mod_one]
  · simp [AffineLayer.backward, npMul, npBinop, hcr, hbr]
  · simp [AffineLayer.backward, npMul, npBinop, hc, hbc]
  · intro i hi
    have h1 : bcastIdx cache.rows i = i := bcastIdx_of_lt (by omega)
    have h2 : bcastIdx l.bias_weights.rows i = i := bcastIdx_of_lt (by omega)
    simp [AffineLayer.backward, npMul, npBinop, h1, h2, bcastIdx_zero]
  · simp [AffineLayer.backward, npDot, npT]
  · simp [AffineLayer.backward, npDot, hc]
  · intro i
    simp [AffineLayer.backward, npDot, npT]

/-- A concrete 2-in, 1-out affine layer with a batch-1 cached input,
for the C1 witness. -/
def cAffineB1 : AffineLayer :=
  ⟨⟨1, 2, fun _ j => (j : ℝ) + 1⟩, cm 1 1 4, cm 2 1 6, emptyMat, emptyMat, emptyMat⟩

/-- Witness for C1: on the concrete layer the stored gradient and the
overwritten bias take the claimed values. -/
theorem affine_backward_spec_witness :
    (cAffineB1.backward (cm 1 1 10)).1.gradient.entry 0 1 = 10 * 6 ∧
    (cAffineB1.backward (cm 1 1 10)).1.bias_weights.entry 0 0 = 10 * 4 := by
  have h := affine_backward_spec cAffineB1 (cm 1 1 10)
    (by decide) (by decide) (by decide) (by decide) (by decide) (by decide)
  refine ⟨?_, ?_⟩
  · have h1 := h.1.2.2 0 1
    rw [h1]
    simp [cAffineB1, cm]
  · have h1 := h.2.1.2.2 0 (by decide)
    rw [h1]
    simp [cAffineB1, cm]

/-- Counterexample for C1 as stated: with a cached input of batch size
2, `np.outer` flattens both arguments, so the stored weight gradient has
`out_dim * batch = 2` rows instead of the claimed `out_dim = 1`. -/
theorem affine_backward_batch_shape_cex :
    (cAffine2.backward cCache2).1.gradient.rows ≠ cAffine2.weights.rows := by
  decide

/-- C8, evaluated at the failing input `in_dim = 8`: the scale passed to
the zero-mean normal draw is `2 / in_dim = 2/8` (the source computes
`xavier_std = 2 / in_dim` with no square root), which differs from the
claimed `sqrt(2/in_dim) = sqrt(2/8)`; the bias is the constant column
`0.01` of shape `out_dim × 1` as claimed. -/
theorem affine_init_missing_sqrt :
    (AffineLayer.init cSampler 8 1).weights.entry 0 0 = 2 / 8 ∧
    Real.sqrt (2 / 8) ≠ 2 / 8 ∧
    (AffineLayer.init cSampler 8 1).weights.rows = 1 ∧
    (AffineLayer.init cSampler 8 1).weights.cols = 8 ∧
    (AffineLayer.init cSampler 8 1).bias_weights.rows = 1 ∧
    (AffineLayer.init cSampler 8 1).bias_weights.cols = 1 ∧
    (AffineLayer.init cSampler 8 1).bias_weights.entry 0 0 = 0.01 := by
  refine ⟨?_, ?_, rfl, rfl, rfl, rfl, rfl⟩
  · simp [AffineLayer.init, cSampler]
  · have hs : Real.sqrt (2 / 8) = 1 / 2 := by
      rw [show (2 / 8 : ℝ) = (1 / 2) ^ 2 by norm_num]
      exact Real.sqrt_sq (by norm_num)
    rw [hs]
    norm_num

/-- C3: `SoftmaxLayer.backward` on a one-hot label matrix of the shape
of the cached forward output returns `(forward_product - y)` averaged
over the batch axis, reshaped to an `out_dim × 1` column. -/
theorem softmax_backward_spec (l : SoftmaxLayer) (y : NMat)
    (hy : IsOneHot y) (hr : y.rows = l.forward_product.rows)
    (hc : y.cols = l.forward_product.cols) :
    (l.backward y).2.rows = l.forward_product.rows ∧
    (l.backward y).2.cols = 1 ∧
    ∀ i, i < l.forward_product.rows →
      (l.backward y).2.entry i 0 =
        (∑ j ∈ Finset.range l.forward_product.cols,
          (l.forward_product.entry i j - y.entry i j)) /
        (l.forward_product.cols : ℝ) := by
  refine ⟨by simp [SoftmaxLayer.backward, colOf, npSub, npBinop, hr], rfl, ?_⟩
  intro i hi
  show meanAxis1 (npSub l.forward_product y) i = _
  unfold meanAxis1
  have hcols : (npSub l.forward_product y).cols = l.forward_product.cols := by
    simp [npSub, npBinop, hc]
  rw [hcols]
  congr 1
  refine Finset.sum_congr rfl (fun j hj => ?_)
  have hj' : j < l.forward_product.cols := Finset.mem_range.1 hj
  simp [npSub, npBinop, bcastIdx_of_lt hi, bcastIdx_of_lt hj',
    bcastIdx_of_lt (show i < y.rows by omega),
    bcastIdx_of_lt (show j < y.cols by omega)]

/-- Concrete 2×2 one-hot label matrix (the identity). -/
def cY2 : NMat := ⟨2, 2, fun i j => if i = j then 1 else 0⟩

/-- Concrete 2×2 cached softmax output for the C3 witness. -/
def cFP2 : NMat :=
  ⟨2, 2, fun i j =>
    if i = 0 then (if j = 0 then 0.7 else 0.2) else (if j = 0 then 0.3 else 0.8)⟩

/-- Concrete softmax layer state holding `cFP2`. -/
def cSM : SoftmaxLayer := ⟨2, emptyMat, cFP2, emptyMat⟩

/-- Witness for C3, the hand-computed 2-class example: the averaged
gradient column is `((0.7-1)+(0.2-0))/2 = -0.05` in the first row. -/
theorem softmax_backward_spec_witness :
    (cSM.backward cY2).2.entry 0 0 = -(1 / 20) := by
  have h := softmax_backward_spec cSM cY2
    (fun j hj => ⟨j, hj, fun i hi => rfl⟩) rfl rfl
  rw [h.2.2 0 (by decide)]
  show (∑ j ∈ Finset.range 2, (cFP2.entry 0 j - cY2.entry 0 j)) / (2 : ℝ) = _
  rw [Finset.sum_range_succ, Finset.sum_range_succ]
  norm_num [cFP2, cY2]

/-- One-hot matrices have only 0/1 entries in range. -/
theorem IsOneHot.entry_mem {y : NMat} (hy : IsOneHot y) {i j : ℕ}
    (hi : i < y.rows) (hj : j < y.cols) :
    y.entry i j = 0 ∨ y.entry i j = 1 := by
  obtain ⟨t, _, ht⟩ := hy j hj
  rw [ht i hi]
  split
  · exact Or.inr rfl
  · exact Or.inl rfl

/-- C4 (amended): the cross-entropy cost is non-negative for any
predicted matrix whose columns are probability distributions and any
matching one-hot label matrix, provided every true-class predicted
probability is at most `1 - 1e-9` (the clip bound `1 - 1e-12` together
with the additive `1e-9` smoothing makes the cost slightly negative
when a true-class probability exceeds `1 - 1e-9`). -/
theorem cost_function_nonneg (AL y : NMat)
    (hdr : y.rows = AL.rows) (hdc : y.cols = AL.cols)
    (hy : IsOneHot y)
    (hpos : ∀ i j, i < AL.rows → j < AL.cols → 0 ≤ AL.entry i j)
    (hsum : ∀ j, j < AL.cols →
      ∑ i ∈ Finset.range AL.rows, AL.entry i j = 1)
    (htrue : ∀ i j, i < AL.rows → j < AL.cols → y.entry i j = 1 →
      AL.entry i j ≤ 1 - 1 / 10 ^ 9) :
    0 ≤ cost_function AL y := by
  unfold cost_function
  refine div_nonneg ?_ (Nat.cast_nonneg _)
  rw [neg_nonneg]
  unfold sumAll
  refine Finset.sum_nonpos (fun i hi => Finset.sum_nonpos (fun j hj => ?_))
  have hi' : i < AL.cols := by
    have h := Finset.mem_range.1 hi
    simpa [npMul, npBinop, npLog, npAddScalar, npClip, npMap, npT, hdc] using h
  have hj' : j < AL.rows := by
    have h := Finset.mem_range.1 hj
    simpa [npMul, npBinop, npLog, npAddScalar, npClip, npMap, npT, hdr] using h
  have hterm : (npMul (npT y)
      (npLog (npAddScalar (npClip (npT AL) (1 / 10 ^ 12) (1 - 1 / 10 ^ 12))
        (1 / 10 ^ 9)))).entry i j =
      y.entry j i *
        Real.log (min (max (AL.entry j i) (1 / 10 ^ 12)) (1 - 1 / 10 ^ 12)
          + 1 / 10 ^ 9) := by
    simp [npMul, npBinop, npLog, npAddScalar, npClip, npMap, npT,
      bcastIdx_of_lt (show i < y.cols by omega),
      bcastIdx_of_lt (show j < y.rows by omega),
      bcastIdx_of_lt (show i < AL.cols from hi'),
      bcastIdx_of_lt (show j < AL.rows from hj')]
  rw [hterm]
  rcases hy.entry_mem (show j < y.rows by omega) (show i < y.cols by omega)
    with h0 | h1
  · rw [h0, zero_mul]
  · rw [h1, one_mul]
    have hp : AL.entry j i ≤ 1 - 1 / 10 ^ 9 :=
      htrue j i hj' hi' h1
    refine Real.log_nonpos ?_ ?_
    · have : (0 : ℝ) ≤ min (max (AL.entry j i) (1 / 10 ^ 12)) (1 - 1 / 10 ^ 12) := by
        refine le_min ?_ (by norm_num)
        exact le_trans (by norm_num) (le_max_right _ _)
      linarith
    · have hm : min (max (AL.entry j i) (1 / 10 ^ 12)) (1 - 1 / 10 ^ 12) ≤
          1 - 1 / 10 ^ 9 := by
        refine le_trans (min_le_left _ _) ?_
        exact max_le hp (by norm_num)
      linarith

/-- Concrete predicted column `(1/2, 1/2)` for the C4 witness. -/
def cALhalf : NMat := ⟨2, 1, fun _ _ => 1 / 2⟩

/-- Concrete one-hot label column `(1, 0)`. -/
def cY1 : NMat := ⟨2, 1, fun i _ => if i = 0 then 1 else 0⟩

/-- Witness for C4: on the uniform 2-class prediction and the label
`(1,0)` the cost is non-negative. -/
theorem cost_function_nonneg_witness : 0 ≤ cost_function cALhalf cY1 := by
  refine cost_function_nonneg cALhalf cY1 rfl rfl ?_ ?_ ?_ ?_
  · intro j hj
    exact ⟨0, by decide, fun i hi => rfl⟩
  · intro i j hi hj
    norm_num [cALhalf]
  · intro j hj
    show ∑ i ∈ Finset.range 2, cALhalf.entry i j = 1
    rw [Finset.sum_range_succ, Finset.sum_range_succ]
    norm_num [cALhalf]
  · intro i j hi hj hy1
    norm_num [cALhalf]

/-- Concrete predicted column `(1, 0)`, a valid distribution putting all
mass on the true class. -/
def cAL1 : NMat := ⟨2, 1, fun i _ => if i = 0 then 1 else 0⟩

/-- Counterexample for C4 as stated: with prediction `(1, 0)` and
one-hot label `(1, 0)` — a valid probability/one-hot pair — the cost is
`-log(1 - 1e-12 + 1e-9) < 0`: the clip keeps the probability at
`1 - 1e-12` and the additive `1e-9` pushes the log argument above 1. -/
theorem cost_function_neg_cex : cost_function cAL1 cY1 < 0 := by
  have hv : cost_function cAL1 cY1 =
      -Real.log (1 - 1 / 10 ^ 12 + 1 / 10 ^ 9) := by
    unfold cost_function sumAll
    show -(∑ i ∈ Finset.range 1, ∑ j ∈ Finset.range 2, _) / _ = _
    rw [Finset.sum_range_succ, Finset.sum_range_succ, Finset.sum_range_succ]
    simp only [npMul, npBinop, npLog, npAddScalar, npClip, npMap, npT,
      cAL1, cY1, bcastIdx, Finset.range_zero, Finset.sum_empty]
    norm_num
  rw [hv, neg_lt_zero]
  exact Real.log_pos (by norm_num)

/-- Shift invariance of the softmax quotient: subtracting any constant
before exponentiating cancels between numerator and denominator. -/
theorem softmax_shift (m : ℕ) (a : ℕ → ℝ) (c : ℝ) (i : ℕ) :
    Real.exp (a i - c) / ∑ k ∈ Finset.range m, Real.exp (a k - c) =
      Real.exp (a i) / ∑ k ∈ Finset.range m, Real.exp (a k) := by
  have hsum : ∑ k ∈ Finset.range m, Real.exp (a k - c) =
      (∑ k ∈ Finset.range m, Real.exp (a k)) / Real.exp c := by
    rw [Finset.sum_div]
    exact Finset.sum_congr rfl fun k _ => Real.exp_sub (a k) c
  rw [Real.exp_sub, hsum, div_div_div_cancel_right₀ (Real.exp_ne_zero c)]

/-- The in-range entries of the softmax forward output in canonical
(unshifted) form. -/
theorem softmax_forward_entry (l : SoftmaxLayer) (x : NMat)
    {i j : ℕ} (hi : i < x.rows) (hj : j < x.cols) :
    (l.forward x).2.entry i j =
      Real.exp (x.entry i j) / ∑ k ∈ Finset.range x.rows, Real.exp (x.entry k j) := by
  have h : (l.forward x).2.entry i j =
      Real.exp (x.entry (bcastIdx x.rows i) (bcastIdx x.cols j) - npMax x) /
        ∑ k ∈ Finset.range x.rows, Real.exp (x.entry k (bcastIdx x.cols j) - npMax x) :=
    rfl
  rw [h, bcastIdx_of_lt hi, bcastIdx_of_lt hj]
  exact softmax_shift x.rows (fun k => x.entry k j) (npMax x) i

/-- C2: `SoftmaxLayer.forward` returns the numerically stabilised
softmax: although the source subtracts the global maximum, each output
entry equals `exp(x_ij - m_j) / Σ_k exp(x_kj - m_j)` with `m_j` the
per-column maximum; consequently every output column sums to 1 and no
entry is negative. -/
theorem softmax_forward_spec (l : SoftmaxLayer) (x : NMat)
    (hm : 0 < x.rows) (hn : 0 < x.cols) :
    (l.forward x).2.rows = x.rows ∧ (l.forward x).2.cols = x.cols ∧
    (∀ i j, i < x.rows → j < x.cols → (l.forward x).2.entry i j =
      Real.exp (x.entry i j - specColMax x j) /
        ∑ k ∈ Finset.range x.rows, Real.exp (x.entry k j - specColMax x j)) ∧
    (∀ j, j < x.cols → ∑ i ∈ Finset.range x.rows, (l.forward x).2.entry i j = 1) ∧
    (∀ i j, i < x.rows → j < x.cols → 0 ≤ (l.forward x).2.entry i j) := by
  have hS : ∀ j, 0 < ∑ k ∈ Finset.range x.rows, Real.exp (x.entry k j) :=
    fun j => Finset.sum_pos (fun k _ => Real.exp_pos _)
      ⟨0, Finset.mem_range.2 hm⟩
  refine ⟨?_, ?_, ?_, ?_, ?_⟩
  · show max x.rows 1 = x.rows
    omega
  · show max x.cols x.cols = x.cols
    omega
  · intro i j hi hj
    rw [softmax_forward_entry l x hi hj,
      softmax_shift x.rows (fun k => x.entry k j) (specColMax x j) i]
  · intro j hj
    have he : ∀ i ∈ Finset.range x.rows, (l.forward x).2.entry i j =
        Real.exp (x.entry i j) / ∑ k ∈ Finset.range x.rows, Real.exp (x.entry k j) :=
      fun i hi => softmax_forward_entry l x (Finset.mem_range.1 hi) hj
    rw [Finset.sum_congr rfl he, ← Finset.sum_div]
    exact div_self (ne_of_gt (hS j))
  · intro i j hi hj
    rw [softmax_forward_entry l x hi hj]
    exact div_nonneg (Real.exp_pos _).le (hS j).le

/-- Witness for C2: on the 1×1 zero input the softmax output column
sums to 1 and its entry is non-negative. -/
theorem softmax_forward_spec_witness :
    (∑ i ∈ Finset.range 1,
      ((SoftmaxLayer.init 1).forward (cm 1 1 0)).2.entry i 0 = 1) ∧
    0 ≤ ((SoftmaxLayer.init 1).forward (cm 1 1 0)).2.entry 0 0 := by
  have h := softmax_forward_spec (SoftmaxLayer.init 1) (cm 1 1 0)
    (by decide) (by decide)
  exact ⟨h.2.2.2.1 0 (by decide), h.2.2.2.2 0 0 (by decide) (by decide)⟩

/-- Unfolding of the constructor loop on a width list with at least two
entries. -/
theorem mkBuilt_cons (s : NormalSampler) (a b : ℕ) (rest : List ℕ) :
    mkBuilt s (a :: b :: rest) =
      Layer.affine (AffineLayer.init s a b) :: Layer.relu (ReluLayer.init b) ::
        mkBuilt s (b :: rest) := by
  unfold mkBuilt
  rw [show (a :: b :: rest).dropLast = a :: (b :: rest).dropLast from
    List.dropLast_cons₂ ..]
  rfl

/-- Kind-level content of the constructed layer list: drop the trailing
ReLU of the affine/ReLU chain and append the softmax layer. -/
theorem built_pattern (s : NormalSampler) : ∀ (rest : List ℕ) (a b : ℕ),
    ((mkBuilt s (a :: b :: rest)).dropLast ++
      [Layer.softmax (SoftmaxLayer.init ((b :: rest).getLastD 0))]).map Layer.kind =
      specTopologyKinds a (b :: rest) := by
  intro rest
  induction rest with
  | nil =>
    intro a b
    rfl
  | cons c rest ih =>
    intro a b
    rw [mkBuilt_cons, mkBuilt_cons s b c rest, List.dropLast_cons₂, List.dropLast_cons₂,
      ← mkBuilt_cons s b c rest]
    show Layer.kind (Layer.affine (AffineLayer.init s a b)) ::
        Layer.kind (Layer.relu (ReluLayer.init b)) ::
        ((mkBuilt s (b :: c :: rest)).dropLast ++
          [Layer.softmax (SoftmaxLayer.init ((b :: c :: rest).getLastD 0))]).map Layer.kind =
      specTopologyKinds a (b :: c :: rest)
    rw [show (b :: c :: rest).getLastD 0 = (c :: rest).getLastD 0 by
      rw [List.getLastD_cons, List.getLastD_cons, List.getLastD_cons]]
    rw [ih b c]
    rfl

/-- Count of affine kinds in the specified topology. -/
theorem spec_count_affine : ∀ (rest : List ℕ) (a b : ℕ),
    (specTopologyKinds a (b :: rest)).countP
      (fun k => match k with | .affineK _ _ => true | _ => false) =
      rest.length + 1 := by
  intro rest
  induction rest with
  | nil => intro a b; rfl
  | cons c rest ih =>
    intro a b
    show (LayerKind.affineK a b :: LayerKind.reluK b ::
      specTopologyKinds b (c :: rest)).countP _ = _
    rw [List.countP_cons, List.countP_cons, ih b c]
    simp [List.length_cons]

/-- Count of ReLU kinds in the specified topology. -/
theorem spec_count_relu : ∀ (rest : List ℕ) (a b : ℕ),
    (specTopologyKinds a (b :: rest)).countP
      (fun k => match k with | .reluK _ => true | _ => false) = rest.length := by
  intro rest
  induction rest with
  | nil => intro a b; rfl
  | cons c rest ih =>
    intro a b
    show (LayerKind.affineK a b :: LayerKind.reluK b ::
      specTopologyKinds b (c :: rest)).countP _ = _
    rw [List.countP_cons, List.countP_cons, ih b c]
    simp [List.length_cons]

/-- Count of softmax kinds in the specified topology. -/
theorem spec_count_softmax : ∀ (rest : List ℕ) (a b : ℕ),
    (specTopologyKinds a (b :: rest)).countP
      (fun k => match k with | .softmaxK _ => true | _ => false) = 1 := by
  intro rest
  induction rest with
  | nil => intro a b; rfl
  | cons c rest ih =>
    intro a b
    show (LayerKind.affineK a b :: LayerKind.reluK b ::
      specTopologyKinds b (c :: rest)).countP _ = _
    rw [List.countP_cons, List.countP_cons, ih b c]
    simp

/-- Layer-level predicates agree with the kind-level ones. -/
theorem countP_kind (L : List Layer) :
    L.countP Layer.isAffineB = (L.map Layer.kind).countP
      (fun k => match k with | .affineK _ _ => true | _ => false) ∧
    L.countP Layer.isReluB = (L.map Layer.kind).countP
      (fun k => match k with | .reluK _ => true | _ => false) ∧
    L.countP Layer.isSoftmaxB = (L.map Layer.kind).countP
      (fun k => match k with | .softmaxK _ => true | _ => false) := by
  refine ⟨?_, ?_, ?_⟩ <;>
    (rw [List.countP_map]; exact List.countP_congr (fun l _ => by cases l <;> rfl))

/-- C6: for any width sequence `d0 :: d1 :: rest` (length ≥ 2) the
constructor succeeds and produces exactly the layer pattern
`Affine(d0,d1), ReLU(d1), …, Affine(d_{k-1},dk), Softmax(dk)`: it has
`k` affine layers, `k-1` ReLU layers and a single softmax layer, which
is the last element. -/
theorem network_topology_spec (sampler : NormalSampler) (d0 d1 : ℕ) (rest : List ℕ) :
    ∃ net, mkNetwork sampler (d0 :: d1 :: rest) = some net ∧
      net.layer_dimensions = d0 :: d1 :: rest ∧
      net.layers.map Layer.kind = specTopologyKinds d0 (d1 :: rest) ∧
      net.layers.countP Layer.isAffineB = rest.length + 1 ∧
      net.layers.countP Layer.isReluB = rest.length ∧
      net.layers.countP Layer.isSoftmaxB = 1 ∧
      net.layers.getLast? =
        some (Layer.softmax (SoftmaxLayer.init ((d1 :: rest).getLastD 0))) := by
  have hbuilt := mkBuilt_cons sampler d0 d1 rest
  have hlast : (d0 :: d1 :: rest).getLastD 0 = (d1 :: rest).getLastD 0 := by
    rw [List.getLastD_cons, List.getLastD_cons, List.getLastD_cons]
  have hlayers : mkLayers sampler (d0 :: d1 :: rest) =
      some ((mkBuilt sampler (d0 :: d1 :: rest)).dropLast ++
        [Layer.softmax (SoftmaxLayer.init ((d1 :: rest).getLastD 0))]) := by
    unfold mkLayers
    rw [hlast, hbuilt]
  refine ⟨⟨d0 :: d1 :: rest,
    (mkBuilt sampler (d0 :: d1 :: rest)).dropLast ++
      [Layer.softmax (SoftmaxLayer.init ((d1 :: rest).getLastD 0))]⟩,
    ?_, rfl, ?_, ?_, ?_, ?_, ?_⟩
  · rw [mkNetwork, hlayers]
    rfl
  · exact built_pattern sampler rest d0 d1
  · rw [(countP_kind _).1, built_pattern sampler rest d0 d1,
      spec_count_affine rest d0 d1]
  · rw [(countP_kind _).2.1, built_pattern sampler rest d0 d1,
      spec_count_relu rest d0 d1]
  · rw [(countP_kind _).2.2, built_pattern sampler rest d0 d1,
      spec_count_softmax rest d0 d1]
  · exact List.getLast?_concat _

/-- Witness for C6: the width sequence `[2, 3]` yields the two-layer
network `Affine(2,3), Softmax(3)`. -/
theorem network_topology_spec_witness :
    ∃ net, mkNetwork cSampler [2, 3] = some net ∧
      net.layers.map Layer.kind = [.affineK 2 3, .softmaxK 3] := by
  obtain ⟨net, h1, _, h3, _⟩ := network_topology_spec cSampler 2 3 []
  refine ⟨net, h1, by rw [h3]; rfl⟩

/-- A layer's `forward` only touches its cached input and output, never
its parameter view. -/
theorem Layer.forward_paramView (L : Layer) (x : NMat) :
    (L.forward x).1.paramView = L.paramView := by
  cases L <;> rfl

/-- Threading a forward pass through a layer list preserves every
parameter view. -/
theorem forwardLayers_paramView : ∀ (ls : List Layer) (v : NMat),
    ((forwardLayers ls v).1).map Layer.paramView = ls.map Layer.paramView := by
  intro ls
  induction ls with
  | nil => intro v; rfl
  | cons L rest ih =>
    intro v
    simp [forwardLayers, Layer.forward_paramView, ih]

/-- `forward_pass` preserves the network's parameter view. -/
theorem forward_pass_paramsView (net : NeuralNetwork) (X : NMat) :
    (net.forward_pass X).1.paramsView = net.paramsView := by
  simp [NeuralNetwork.forward_pass, NeuralNetwork.paramsView, forwardLayers_paramView]

/-- The action of `update_parameters` on a single parameter view. -/
def viewUpd (alpha : ℝ) : ParamView → ParamView
  | .affineP w b g => .affineP (npSub w (npSmul alpha g)) b g
  | v => v

/-- `update_parameters` acts on the parameter view of each layer
independently of the cached state. -/
theorem update_paramsView (net : NeuralNetwork) (alpha : ℝ) :
    (net.update_parameters alpha).paramsView = net.paramsView.map (viewUpd alpha) := by
  unfold NeuralNetwork.update_parameters NeuralNetwork.paramsView
  rw [List.map_map, List.map_map]
  exact List.map_congr_left (fun L _ => by cases L <;> rfl)

/-- The reporting branch (two accuracy computations and one validation
forward pass) preserves the parameter view. -/
theorem reportState_paramsView (net : NeuralNetwork) (Xtr ytr Xval yval : NMat) :
    (reportState net Xtr ytr Xval yval).paramsView = net.paramsView := by
  unfold reportState NeuralNetwork.get_accuracy_score NeuralNetwork.predict
  rw [forward_pass_paramsView, forward_pass_paramsView, forward_pass_paramsView]

/-- C9: every iteration `i` of the training loop selects the example at
`perm (i % N)`, runs forward, records the loss, runs backward, and ends
with `update_parameters` — the parameter update happens whether or not
the reporting condition `i % 1999 == 0` holds (the reporting branch only
re-runs forward passes, which leave all parameters intact); and the loop
on `iters + 1` iterations is the loop on `iters` iterations followed by
step `iters`. -/
theorem trainStep_spec (Xtr ytr Xval yval : NMat) (alpha : ℝ) (perm : ℕ → ℕ)
    (p : NeuralNetwork × List ℝ) (i : ℕ) :
    (trainStep Xtr ytr Xval yval alpha perm p i).1.paramsView =
      (((p.1.forward_pass (npT (rowMat Xtr (perm (i % Xtr.rows))))).1.backward_pass
        (npT (rowMat ytr (perm (i % Xtr.rows))))).update_parameters alpha).paramsView ∧
    (trainStep Xtr ytr Xval yval alpha perm p i).2 =
      p.2 ++ [cost_function
        (p.1.forward_pass (npT (rowMat Xtr (perm (i % Xtr.rows))))).2
        (npT (rowMat ytr (perm (i % Xtr.rows))))] ∧
    (i % 1999 ≠ 0 → trainStep Xtr ytr Xval yval alpha perm p i =
      (((p.1.forward_pass (npT (rowMat Xtr (perm (i % Xtr.rows))))).1.backward_pass
        (npT (rowMat ytr (perm (i % Xtr.rows))))).update_parameters alpha,
       p.2 ++ [cost_function
         (p.1.forward_pass (npT (rowMat Xtr (perm (i % Xtr.rows))))).2
         (npT (rowMat ytr (perm (i % Xtr.rows))))])) ∧
    ∀ net : NeuralNetwork,
      trainLoop Xtr ytr Xval yval alpha perm net (i + 1) =
        trainStep Xtr ytr Xval yval alpha perm
          (trainLoop Xtr ytr Xval yval alpha perm net i) i := by
  refine ⟨?_, rfl, ?_, ?_⟩
  · by_cases hif : i % 1999 = 0
    · show ((if i % 1999 = 0 then _ else _ : NeuralNetwork).update_parameters
        alpha).paramsView = _
      rw [if_pos hif, update_paramsView, update_paramsView, reportState_paramsView]
    · show ((if i % 1999 = 0 then _ else _ : NeuralNetwork).update_parameters
        alpha).paramsView = _
      rw [if_neg hif]
  · intro h
    show ((if i % 1999 = 0 then _ else _ : NeuralNetwork).update_parameters alpha,
      _) = _
    rw [if_neg h]
  · intro net
    unfold trainLoop
    rw [List.range_succ, List.foldl_append, List.foldl_cons, List.foldl_nil]

/-- Witness for C9: a concrete step with `i = 1` (so the reporting
condition fails) equals forward, backward, then update, with the loss
appended. -/
theorem trainStep_spec_witness :
    trainStep (cm 1 1 1) (cm 1 1 1) (cm 1 1 1) (cm 1 1 1) 1 (fun _ => 0)
      (cNet, []) 1 =
      (((cNet.forward_pass (npT (rowMat (cm 1 1 1) 0))).1.backward_pass
        (npT (rowMat (cm 1 1 1) 0))).update_parameters 1,
       [cost_function (cNet.forward_pass (npT (rowMat (cm 1 1 1) 0))).2
         (npT (rowMat (cm 1 1 1) 0))]) := by
  have h := (trainStep_spec (cm 1 1 1) (cm 1 1 1) (cm 1 1 1) (cm 1 1 1) 1
    (fun _ => 0) (cNet, []) 1).2.2.1 (by decide)
  simpa using h

end
